import Mathlib

/-!
Verification development for the `grouplock` repository (werbenhu/grouplock).

The repository holds two near-duplicate Go implementations of a keyed
mutual-exclusion primitive:

* `grouplock.go` (`GroupLock`): `Lock` / `Unlock` / `cleanup` / `Stop`, where
  `cleanup` reads the reference count without touching the per-key mutex;
* `src/unnamed/part_001` (package `klocker`, type `Mutex`): identical except
  that its `cleanup` takes the per-key mutex (a blocking `mutex.Lock()`)
  around the count check and the registry delete.

Two embeddings are developed below.

1. A pure sequential model (`structure GroupLock`): each Go method becomes a Lean
   function on a state record.  The registry (`sync.Map` from key to
   `*lockItem`) is a function `String → Option Entry`; the clean-keys
   `sync.Map`, which the Go code uses purely as a set that it `Store`s into,
   `Range`s over and `Delete`s from, is a duplicate-free list of keys; the
   close channel is a `closed` flag (closing a closed Go channel panics,
   modelled with `Except`).

2. A small-step interleaving model (`structure CState` with a labelled
   transition relation `Step`): every atomic Go action of `Lock`, `Unlock`
   and the klocker sweep goroutine is one transition, so races between
   callers and the sweeper can be exhibited and reasoned about.  Entries are
   heap cells (`Nat` identifiers into `entries`) so that a caller holding a
   stale `*lockItem` pointer after the sweeper deleted the registry slot is
   representable, exactly as in Go.
-/

/-- One `lockItem` of the Go code: a `sync.Mutex` (a mutex is just
held-or-free, it records no owner) and the `int32` reference count.  The
count is modelled as `Int`: the Go code only ever adds and subtracts one and
compares with zero, far from the `int32` wrap-around. -/
structure Entry where
  locked : Bool
  count : Int
deriving DecidableEq, Repr

/-- Pointwise update of a function, used for every map write in the models. -/
def upd {α : Type} [DecidableEq α] {β : Type} (f : α → β) (a : α) (b : β) : α → β :=
  fun a' => if a' = a then b else f a'

theorem upd_same {α : Type} [DecidableEq α] {β : Type} (f : α → β) (a : α) (b : β) :
    upd f a b a = b := by
  simp [upd]

theorem upd_other {α : Type} [DecidableEq α] {β : Type} (f : α → β) (a a' : α) (b : β)
    (h : a' ≠ a) : upd f a b a' = f a' := by
  simp [upd, h]

/-- Sequential state of one `GroupLock` handle: the `locks` registry, the
`cleanKeys` set (kept as a duplicate-free list, in the order keys were
stored, standing for the iteration order of `Range`), and whether `closeCh`
has been closed. -/
structure GroupLock where
  locks : String → Option Entry
  cleanKeys : List String
  closed : Bool

namespace GroupLock

/-- `cleanKeys.Store(key, struct{}{})`: storing under an existing key of a
`sync.Map` used as a set leaves the set unchanged. -/
def insertK (p : List String) (k : String) : List String :=
  if k ∈ p then p else p ++ [k]

/-- `GroupLock.Lock` as a whole call under sequential (uncontended)
semantics: `LoadOrStore` the entry, increment the count, then take the
mutex.  `none` stands for the call blocking forever (the mutex is already
held and, sequentially, nobody is left to release it); in that case the
state change made before blocking is not observed by the caller. -/
def Lock (s : GroupLock) (k : String) : Option GroupLock :=
  let loaded :=
    match s.locks k with
    | some e => (e, s.locks)
    | none =>
        let fresh : Entry := { locked := false, count := 0 }
        (fresh, upd s.locks k (some fresh))
  let item := loaded.1
  let item1 : Entry := { item with count := item.count + 1 }
  if item1.locked then
    none
  else
    some { s with locks := upd loaded.2 k (some { item1 with locked := true }) }

/-- `GroupLock.Unlock`: look the entry up; absent keys are a silent no-op;
otherwise release the mutex, decrement the count, and mark the key for
cleanup when the new count is `≤ 0`. -/
def Unlock (s : GroupLock) (k : String) : GroupLock :=
  match s.locks k with
  | none => s
  | some e =>
      let e1 : Entry := { e with locked := false }
      let newCount := e1.count - 1
      let e2 : Entry := { e1 with count := newCount }
      let s1 : GroupLock := { s with locks := upd s.locks k (some e2) }
      if newCount ≤ 0 then
        { s1 with cleanKeys := insertK s1.cleanKeys k }
      else
        s1

/-- The `Range` body of `GroupLock.cleanup` folded over the pending keys:
for each key, if its entry exists and its count is `≤ 0`, delete it from the
registry and record the key in `keysToRemove`; the mutex is never touched.
Returns the new registry and `keysToRemove`. -/
def cleanupPass (locks : String → Option Entry) : List String → (String → Option Entry) × List String
  | [] => (locks, [])
  | k :: rest =>
      match locks k with
      | some e =>
          if e.count ≤ 0 then
            let p := cleanupPass (upd locks k none) rest
            (p.1, k :: p.2)
          else
            cleanupPass locks rest
      | none => cleanupPass locks rest

/-- `GroupLock.cleanup`: run the pass over `cleanKeys`, then delete the
collected `keysToRemove` from `cleanKeys`. -/
def cleanup (s : GroupLock) : GroupLock :=
  let p := cleanupPass s.locks s.cleanKeys
  { s with locks := p.1, cleanKeys := s.cleanKeys.filter (fun k => !(p.2.contains k)) }

/-- `GroupLock.Stop` is `close(gl.closeCh)`: closing an already-closed Go
channel is a runtime panic, modelled as `Except.error`. -/
def Stop (s : GroupLock) : Except String GroupLock :=
  if s.closed then
    Except.error "close of closed channel"
  else
    Except.ok { s with closed := true }

/-- One firing of the cleaner goroutine's ticker: after `closeCh` is closed
the goroutine has returned, so nothing happens; otherwise it runs
`cleanup`. -/
def tick (s : GroupLock) : GroupLock :=
  if s.closed then s else cleanup s

end GroupLock

namespace Klocker

open GroupLock

/-- The `Range` body of the klocker `Mutex.cleanup` folded over the pending
keys.  Unlike `GroupLock.cleanup` it takes the per-key mutex around the
check: `lockData.mutex.Lock()` is a blocking acquisition, so when the mutex
is currently held the sequential pass cannot make progress at all — the
whole pass is `none` ("blocked").  When it can acquire, it checks the count
under the mutex, deletes the entry when the count is `≤ 0`, and unlocks. -/
def kcleanupPass (locks : String → Option Entry) : List String → Option ((String → Option Entry) × List String)
  | [] => some (locks, [])
  | k :: rest =>
      match locks k with
      | some e =>
          if e.locked then
            none
          else
            let eH : Entry := { e with locked := true }
            if eH.count ≤ 0 then
              (kcleanupPass (upd locks k none) rest).map (fun p => (p.1, k :: p.2))
            else
              kcleanupPass (upd locks k (some { eH with locked := false })) rest
      | none => kcleanupPass locks rest

/-- The klocker `Mutex.cleanup`: the locking pass over `cleanKeys`, then the
collected `keysToRemove` are deleted from `cleanKeys`. -/
def kcleanup (s : GroupLock) : Option GroupLock :=
  (kcleanupPass s.locks s.cleanKeys).map
    (fun p => { s with locks := p.1, cleanKeys := s.cleanKeys.filter (fun k => !(p.2.contains k)) })

end Klocker

namespace Conc

/-- Where a caller thread is inside `Lock key` / `Unlock key`.  The
`Nat` component is the identifier of the `lockItem` the thread holds a
pointer to — its local `lockData` variable. -/
inductive Phase where
  | idle
  | lockFetched (k : String) (e : Nat)
  | lockIncremented (k : String) (e : Nat)
  | inCS (k : String) (e : Nat)
  | unlockLoaded (k : String) (e : Nat)
  | unlockReleased (k : String) (e : Nat)
deriving DecidableEq, Repr

/-- Where the klocker sweep goroutine is inside one `cleanup` pass: idle
between ticks, scanning the remaining pending keys while carrying the
`keysToRemove` accumulator, or processing one key (entry loaded, mutex
held, or about to `mutex.Unlock()`). -/
inductive SPhase where
  | sidle
  | sscan (pending : List String) (rem : List String)
  | sloaded (k : String) (e : Nat) (pending : List String) (rem : List String)
  | sholding (k : String) (e : Nat) (pending : List String) (rem : List String)
  | sreleasing (k : String) (e : Nat) (pending : List String) (rem : List String)
deriving DecidableEq, Repr

/-- Transition labels: which goroutine does which atomic action. -/
inductive Label where
  | fetch (t : Nat) (k : String)
  | incr (t : Nat)
  | acquire (t : Nat)
  | uload (t : Nat)
  | urelease (t : Nat)
  | udecr (t : Nat)
  | stop
  | cleanup
  | sstart
  | sskip
  | sload
  | sacquire
  | scheckDel
  | scheckKeep
  | srelease
  | sfinish
deriving DecidableEq, Repr

/-- Interleaving-model state: the registry maps a key to the identifier of
its current `lockItem`, `entries` is the heap of `lockItem`s ever allocated
(a deleted registry slot leaves the item reachable through stale pointers,
as in Go's garbage-collected heap), `cleanKeys` the pending set, `nextId`
the allocator, `phase` each caller thread's position, `sphase` the sweep
goroutine's position and `closed` whether `closeCh` is closed. -/
structure CState where
  locks : String → Option Nat
  entries : Nat → Option Entry
  cleanKeys : List String
  nextId : Nat
  phase : Nat → Phase
  sphase : SPhase
  closed : Bool

/-- The `Range` body of `GroupLock.cleanup` (the variant that never touches
the mutex) over the pending keys, reading counts through the heap:
delete every pending entry whose count is `≤ 0`, collect `keysToRemove`. -/
def gpass (entries : Nat → Option Entry) (locks : String → Option Nat) :
    List String → (String → Option Nat) × List String
  | [] => (locks, [])
  | k :: rest =>
      match locks k with
      | some e =>
          match entries e with
          | some ent =>
              if ent.count ≤ 0 then
                let p := gpass entries (upd locks k none) rest
                (p.1, k :: p.2)
              else
                gpass entries locks rest
          | none => gpass entries locks rest
      | none => gpass entries locks rest

/-- `GroupLock.cleanup` as one atomic pass over the state (its actions touch
each pending key once; running them back-to-back is one of the legal
interleavings, which is all a violation trace needs). -/
def gcleanupState (s : CState) : CState :=
  let p := gpass s.entries s.locks s.cleanKeys
  { s with locks := p.1, cleanKeys := s.cleanKeys.filter (fun k => !(p.2.contains k)) }

/-- One atomic action of one goroutine, labelled.  Caller-thread labels
follow the statements of the Go `Lock`/`Unlock` bodies; `Label.cleanup` is
the `GroupLock` (non-locking) cleanup pass; the `s`-labels are the single
statements of the klocker `Mutex.cleanup` pass, whose `mutex.Lock()` is the
guarded `sacquire` — enabled only while the mutex is free, there is no
transition that skips a held key. -/
inductive Step : Label → CState → CState → Prop where
  | fetch_absent {s : CState} {t : Nat} {k : String} :
      s.phase t = Phase.idle →
      s.locks k = none →
      Step (Label.fetch t k) s
        { s with
          locks := upd s.locks k (some s.nextId),
          entries := upd s.entries s.nextId (some { locked := false, count := 0 }),
          nextId := s.nextId + 1,
          phase := upd s.phase t (Phase.lockFetched k s.nextId) }
  | fetch_present {s : CState} {t : Nat} {k : String} {e : Nat} :
      s.phase t = Phase.idle →
      s.locks k = some e →
      Step (Label.fetch t k) s
        { s with phase := upd s.phase t (Phase.lockFetched k e) }
  | incr {s : CState} {t : Nat} {k : String} {e : Nat} {ent : Entry} :
      s.phase t = Phase.lockFetched k e →
      s.entries e = some ent →
      Step (Label.incr t) s
        { s with
          entries := upd s.entries e (some { ent with count := ent.count + 1 }),
          phase := upd s.phase t (Phase.lockIncremented k e) }
  | acquire {s : CState} {t : Nat} {k : String} {e : Nat} {ent : Entry} :
      s.phase t = Phase.lockIncremented k e →
      s.entries e = some ent →
      ent.locked = false →
      Step (Label.acquire t) s
        { s with
          entries := upd s.entries e (some { ent with locked := true }),
          phase := upd s.phase t (Phase.inCS k e) }
  | uload_absent {s : CState} {t : Nat} {k : String} {e : Nat} :
      s.phase t = Phase.inCS k e →
      s.locks k = none →
      Step (Label.uload t) s
        { s with phase := upd s.phase t Phase.idle }
  | uload_present {s : CState} {t : Nat} {k : String} {e e' : Nat} :
      s.phase t = Phase.inCS k e →
      s.locks k = some e' →
      Step (Label.uload t) s
        { s with phase := upd s.phase t (Phase.unlockLoaded k e') }
  | urelease {s : CState} {t : Nat} {k : String} {e : Nat} {ent : Entry} :
      s.phase t = Phase.unlockLoaded k e →
      s.entries e = some ent →
      ent.locked = true →
      Step (Label.urelease t) s
        { s with
          entries := upd s.entries e (some { ent with locked := false }),
          phase := upd s.phase t (Phase.unlockReleased k e) }
  | udecr {s : CState} {t : Nat} {k : String} {e : Nat} {ent : Entry} :
      s.phase t = Phase.unlockReleased k e →
      s.entries e = some ent →
      Step (Label.udecr t) s
        { s with
          entries := upd s.entries e (some { ent with count := ent.count - 1 }),
          cleanKeys := if ent.count - 1 ≤ 0 then GroupLock.insertK s.cleanKeys k else s.cleanKeys,
          phase := upd s.phase t Phase.idle }
  | stop {s : CState} :
      s.closed = false →
      Step Label.stop s { s with closed := true }
  | cleanupG {s : CState} :
      s.closed = false →
      s.sphase = SPhase.sidle →
      Step Label.cleanup s (gcleanupState s)
  | sstart {s : CState} :
      s.closed = false →
      s.sphase = SPhase.sidle →
      Step Label.sstart s { s with sphase := SPhase.sscan s.cleanKeys [] }
  | sskip {s : CState} {k : String} {pend rem : List String} :
      s.sphase = SPhase.sscan (k :: pend) rem →
      s.locks k = none →
      Step Label.sskip s { s with sphase := SPhase.sscan pend rem }
  | sload {s : CState} {k : String} {e : Nat} {pend rem : List String} :
      s.sphase = SPhase.sscan (k :: pend) rem →
      s.locks k = some e →
      Step Label.sload s { s with sphase := SPhase.sloaded k e pend rem }
  | sacquire {s : CState} {k : String} {e : Nat} {ent : Entry} {pend rem : List String} :
      s.sphase = SPhase.sloaded k e pend rem →
      s.entries e = some ent →
      ent.locked = false →
      Step Label.sacquire s
        { s with
          entries := upd s.entries e (some { ent with locked := true }),
          sphase := SPhase.sholding k e pend rem }
  | scheckDel {s : CState} {k : String} {e : Nat} {ent : Entry} {pend rem : List String} :
      s.sphase = SPhase.sholding k e pend rem →
      s.entries e = some ent →
      ent.count ≤ 0 →
      Step Label.scheckDel s
        { s with
          locks := upd s.locks k none,
          sphase := SPhase.sreleasing k e pend (rem ++ [k]) }
  | scheckKeep {s : CState} {k : String} {e : Nat} {ent : Entry} {pend rem : List String} :
      s.sphase = SPhase.sholding k e pend rem →
      s.entries e = some ent →
      0 < ent.count →
      Step Label.scheckKeep s { s with sphase := SPhase.sreleasing k e pend rem }
  | srelease {s : CState} {k : String} {e : Nat} {ent : Entry} {pend rem : List String} :
      s.sphase = SPhase.sreleasing k e pend rem →
      s.entries e = some ent →
      Step Label.srelease s
        { s with
          entries := upd s.entries e (some { ent with locked := false }),
          sphase := SPhase.sscan pend rem }
  | sfinish {s : CState} {rem : List String} :
      s.sphase = SPhase.sscan [] rem →
      Step Label.sfinish s
        { s with
          cleanKeys := s.cleanKeys.filter (fun k => !(rem.contains k)),
          sphase := SPhase.sidle }

/-- A finite execution: the labelled steps taken from the first state to the
last. -/
inductive Exec : CState → List Label → CState → Prop where
  | nil {s : CState} : Exec s [] s
  | cons {s s' s'' : CState} {l : Label} {ls : List Label} :
      Step l s s' → Exec s' ls s'' → Exec s (l :: ls) s''

/-- The empty starting state: no entries, nothing pending, every thread
idle, the sweeper idle, not stopped. -/
def init : CState :=
  { locks := fun _ => none,
    entries := fun _ => none,
    cleanKeys := [],
    nextId := 0,
    phase := fun _ => Phase.idle,
    sphase := SPhase.sidle,
    closed := false }

end Conc

namespace GroupLock

/-- A key absent from the registry is untouched by the cleanup pass: it is
neither resurrected nor collected into `keysToRemove`. -/
theorem cleanupPass_absent (pending : List String) (locks : String → Option Entry)
    (k : String) (h : locks k = none) :
    (cleanupPass locks pending).1 k = none ∧ k ∉ (cleanupPass locks pending).2 := by
  induction pending generalizing locks with
  | nil => simpa [cleanupPass] using h
  | cons k' rest ih =>
      by_cases hkk : k = k'
      · subst hkk
        simp only [cleanupPass, h]
        exact ⟨(ih locks h).1, (ih locks h).2⟩
      · simp only [cleanupPass]
        cases hm : locks k' with
        | none => exact ih locks h
        | some e =>
            by_cases hc : e.count ≤ 0
            · have h' : upd locks k' none k = none := by rw [upd_other _ _ _ _ hkk]; exact h
              simp only [hc, if_true]
              refine ⟨(ih _ h').1, ?_⟩
              intro hmem
              rcases List.mem_cons.mp hmem with h1 | h1
              · exact hkk h1
              · exact (ih _ h').2 h1
            · simp only [hc, if_false]
              exact ih locks h

end GroupLock

namespace Klocker

open GroupLock

/-- A key absent from the registry is untouched by a completed klocker
cleanup pass: still absent afterwards, and never collected into
`keysToRemove`. -/
theorem kcleanupPass_absent (pending : List String) (locks : String → Option Entry)
    (k : String) (h : locks k = none) {l2 : String → Option Entry} {rem : List String}
    (hp : kcleanupPass locks pending = some (l2, rem)) :
    l2 k = none ∧ k ∉ rem := by
  induction pending generalizing locks l2 rem with
  | nil =>
      simp only [kcleanupPass, Option.some.injEq, Prod.mk.injEq] at hp
      rw [← hp.1, ← hp.2]
      simp [h]
  | cons k' rest ih =>
      by_cases hkk : k = k'
      · subst hkk
        simp only [kcleanupPass, h] at hp
        exact ih locks h hp
      · simp only [kcleanupPass] at hp
        cases hm : locks k' with
        | none =>
            rw [hm] at hp
            exact ih locks h hp
        | some e =>
            rw [hm] at hp
            by_cases hl : e.locked
            · simp [hl] at hp
            · simp only [hl, if_neg, Bool.false_eq_true, if_false] at hp
              by_cases hc : e.count ≤ 0
              · simp only [hc, if_true, Option.map_eq_some'] at hp
                obtain ⟨p, hpass, heq⟩ := hp
                have h' : upd locks k' none k = none := by
                  rw [upd_other _ _ _ _ hkk]; exact h
                obtain ⟨ha, hb⟩ := ih _ h' (by rw [hpass])
                cases hq : p with
                | mk p1 p2 =>
                    rw [hq] at heq
                    cases heq
                    rw [hq] at ha hb
                    refine ⟨ha, ?_⟩
                    intro hmem
                    rcases List.mem_cons.mp hmem with h1 | h1
                    · exact hkk h1
                    · exact hb h1
              · simp only [hc, if_false] at hp
                have h' : upd locks k' (some { e with locked := false }) k = none := by
                  rw [upd_other _ _ _ _ hkk]; exact h
                exact ih _ h' hp

/-- Re-locking an entry and then releasing it is the identity. -/
theorem relock_release (e : Entry) (hl : e.locked = false) :
    ({ { e with locked := true } with locked := false } : Entry) = e := by
  cases e
  simp_all

/-- A registry entry whose mutex is free and whose count is positive
survives a completed klocker cleanup pass unchanged, and its key is never
collected into `keysToRemove`. -/
theorem kcleanupPass_kept (pending : List String) (locks : String → Option Entry)
    (k : String) (e : Entry) (h : locks k = some e) (hl : e.locked = false)
    (hc : 0 < e.count) {l2 : String → Option Entry} {rem : List String}
    (hp : kcleanupPass locks pending = some (l2, rem)) :
    l2 k = some e ∧ k ∉ rem := by
  induction pending generalizing locks l2 rem with
  | nil =>
      simp only [kcleanupPass, Option.some.injEq, Prod.mk.injEq] at hp
      rw [← hp.1, ← hp.2]
      simp [h]
  | cons k' rest ih =>
      by_cases hkk : k = k'
      · subst hkk
        simp only [kcleanupPass, h, hl, Bool.false_eq_true, if_false] at hp
        have hc' : ¬ (e.count ≤ 0) := by omega
        simp only [hc', if_false] at hp
        rw [relock_release e hl] at hp
        exact ih (upd locks k (some e)) (upd_same _ _ _) hp
      · simp only [kcleanupPass] at hp
        cases hm : locks k' with
        | none =>
            rw [hm] at hp
            exact ih locks h hp
        | some e' =>
            rw [hm] at hp
            by_cases hl' : e'.locked
            · simp [hl'] at hp
            · simp only [hl', Bool.false_eq_true, if_false] at hp
              by_cases hc' : e'.count ≤ 0
              · simp only [hc', if_true, Option.map_eq_some'] at hp
                obtain ⟨p, hpass, heq⟩ := hp
                have h' : upd locks k' none k = some e := by
                  rw [upd_other _ _ _ _ hkk]; exact h
                obtain ⟨ha, hb⟩ := ih _ h' (by rw [hpass])
                cases hq : p with
                | mk p1 p2 =>
                    rw [hq] at heq
                    cases heq
                    rw [hq] at ha hb
                    refine ⟨ha, ?_⟩
                    intro hmem
                    rcases List.mem_cons.mp hmem with h1 | h1
                    · exact hkk h1
                    · exact hb h1
              · simp only [hc', if_false] at hp
                have h' : upd locks k' (some { e' with locked := false }) k = some e := by
                  rw [upd_other _ _ _ _ hkk]; exact h
                exact ih _ h' hp

/-- What a completed klocker cleanup pass does to a pending key whose entry
is present: the pass only completes if it could take the mutex (the entry
was free at its turn); under the mutex it deletes the entry and collects
the key exactly when the count is `≤ 0`, and otherwise leaves the entry
as it was and does not collect the key. -/
theorem kcleanupPass_present (pending : List String) (locks : String → Option Entry)
    (k : String) (e : Entry) (h : locks k = some e) (hmem : k ∈ pending)
    {l2 : String → Option Entry} {rem : List String}
    (hp : kcleanupPass locks pending = some (l2, rem)) :
    e.locked = false ∧
    (e.count ≤ 0 → l2 k = none ∧ k ∈ rem) ∧
    (0 < e.count → l2 k = some e ∧ k ∉ rem) := by
  induction pending generalizing locks l2 rem with
  | nil => cases hmem
  | cons k' rest ih =>
      by_cases hkk : k = k'
      · subst hkk
        simp only [kcleanupPass, h] at hp
        by_cases hl : e.locked
        · simp [hl] at hp
        · simp only [hl, Bool.false_eq_true, if_false] at hp
          refine ⟨by simpa using hl, ?_, ?_⟩
          · intro hc
            simp only [hc, if_true, Option.map_eq_some'] at hp
            obtain ⟨p, hpass, heq⟩ := hp
            obtain ⟨ha, hb⟩ := kcleanupPass_absent rest _ k (upd_same _ _ _) (by
              rw [hpass])
            cases hq : p with
            | mk p1 p2 =>
                rw [hq] at heq
                cases heq
                rw [hq] at ha hb
                exact ⟨ha, List.mem_cons_self _ _⟩
          · intro hc
            have hc' : ¬ (e.count ≤ 0) := by omega
            simp only [hc', if_false] at hp
            rw [relock_release e (by simpa using hl)] at hp
            exact kcleanupPass_kept rest _ k e (upd_same _ _ _) (by simpa using hl) hc hp
      · have hmem' : k ∈ rest := by
          rcases List.mem_cons.mp hmem with h1 | h1
          · exact absurd h1 hkk
          · exact h1
        simp only [kcleanupPass] at hp
        cases hm : locks k' with
        | none =>
            rw [hm] at hp
            exact ih locks h hmem' hp
        | some e' =>
            rw [hm] at hp
            by_cases hl' : e'.locked
            · simp [hl'] at hp
            · simp only [hl', Bool.false_eq_true, if_false] at hp
              by_cases hc' : e'.count ≤ 0
              · simp only [hc', if_true, Option.map_eq_some'] at hp
                obtain ⟨p, hpass, heq⟩ := hp
                have h' : upd locks k' none k = some e := by
                  rw [upd_other _ _ _ _ hkk]; exact h
                have hps : kcleanupPass (upd locks k' none) rest = some (p.1, p.2) := by
                  rw [hpass]
                have hrec := ih _ h' hmem' hps
                cases hq : p with
                | mk p1 p2 =>
                    rw [hq] at heq
                    cases heq
                    rw [hq] at hrec
                    refine ⟨hrec.1, fun hc => ⟨(hrec.2.1 hc).1, List.mem_cons_of_mem _ (hrec.2.1 hc).2⟩,
                      fun hc => ⟨(hrec.2.2 hc).1, ?_⟩⟩
                    intro hmm
                    rcases List.mem_cons.mp hmm with h1 | h1
                    · exact hkk h1
                    · exact (hrec.2.2 hc).2 h1
              · simp only [hc', if_false] at hp
                have h' : upd locks k' (some { e' with locked := false }) k = some e := by
                  rw [upd_other _ _ _ _ hkk]; exact h
                exact ih _ h' hmem' hp

end Klocker


/-- C3: `Stop` is `close(gl.closeCh)`; in Go closing an already-closed
channel panics, so a second `Stop()` on the same handle is a fatal runtime
error, not a no-op.  The claim (and the spec's required idempotence) is what
the code should do; the code does not do it. -/
theorem stop_twice_panics :
    GroupLock.Stop { locks := fun _ => none, cleanKeys := [], closed := false } =
      Except.ok { locks := fun _ => none, cleanKeys := [], closed := true } ∧
    GroupLock.Stop { locks := fun _ => none, cleanKeys := [], closed := true } =
      Except.error "close of closed channel" :=
  ⟨rfl, rfl⟩

/-- C6: `Unlock` on a key with no entry in the registry is a complete
no-op: the state — registry, pending set, everything — is returned
unchanged, and nothing fails. -/
theorem unlock_unknown_noop (s : GroupLock) (k : String) (h : s.locks k = none) :
    GroupLock.Unlock s k = s := by
  unfold GroupLock.Unlock
  rw [h]

/-- C6 witness: unlocking `"a"` on a fresh handle (empty registry) changes
nothing. -/
theorem unlock_unknown_noop_witness :
    GroupLock.Unlock { locks := fun _ => none, cleanKeys := [], closed := false } "a" =
      { locks := fun _ => none, cleanKeys := [], closed := false } :=
  unlock_unknown_noop _ "a" rfl

/-- C10: a key that sits in the pending set without a registry entry when a
cleanup pass runs is left exactly as it is by both variants of the pass:
it stays in the pending set (a key leaves the pending set only in a pass
that deletes its entry) and the registry still has nothing under it. -/
theorem cleanup_unmatched_pending_kept (s : GroupLock) (k : String)
    (h1 : s.locks k = none) (h2 : k ∈ s.cleanKeys) :
    (GroupLock.cleanup s).locks k = none ∧ k ∈ (GroupLock.cleanup s).cleanKeys ∧
    (∀ s', Klocker.kcleanup s = some s' → s'.locks k = none ∧ k ∈ s'.cleanKeys) := by
  obtain ⟨ha, hb⟩ := GroupLock.cleanupPass_absent s.cleanKeys s.locks k h1
  refine ⟨ha, ?_, ?_⟩
  · unfold GroupLock.cleanup
    simp only [List.mem_filter, Bool.not_eq_eq_eq_not, Bool.not_true]
    exact ⟨h2, by simpa using hb⟩
  · intro s' hs'
    unfold Klocker.kcleanup at hs'
    rw [Option.map_eq_some'] at hs'
    obtain ⟨p, hpass, heq⟩ := hs'
    have hps : Klocker.kcleanupPass s.locks s.cleanKeys = some (p.1, p.2) := by
      rw [hpass]
    obtain ⟨ha', hb'⟩ := Klocker.kcleanupPass_absent s.cleanKeys s.locks k h1 hps
    subst heq
    refine ⟨ha', ?_⟩
    simp only [List.mem_filter, Bool.not_eq_eq_eq_not, Bool.not_true]
    exact ⟨h2, by simpa using hb'⟩

/-- C10 witness: key `"b"` pending but absent from the registry; both
cleanup passes keep it pending and create no entry for it. -/
theorem cleanup_unmatched_pending_kept_witness :
    (GroupLock.cleanup { locks := fun _ => none, cleanKeys := ["b"], closed := false }).locks "b" = none ∧
    "b" ∈ (GroupLock.cleanup { locks := fun _ => none, cleanKeys := ["b"], closed := false }).cleanKeys ∧
    (∀ s', Klocker.kcleanup { locks := fun _ => none, cleanKeys := ["b"], closed := false } = some s' →
      s'.locks "b" = none ∧ "b" ∈ s'.cleanKeys) :=
  cleanup_unmatched_pending_kept { locks := fun _ => none, cleanKeys := ["b"], closed := false }
    "b" rfl (List.mem_singleton.mpr rfl)

/-- A registry with one free entry for `"a"` with reference count 1 (a
`Lock("a")` has incremented but not yet blocked on the mutex), and `"a"`
pending from an earlier `Unlock`. -/
def pendingBusy : GroupLock :=
  { locks := upd (fun _ => none) "a" (some { locked := false, count := 1 }),
    cleanKeys := ["a"],
    closed := false }

/-- The state `pendingBusy` is left in by one klocker cleanup pass. -/
def pendingBusyAfter : GroupLock :=
  { locks := upd (upd (fun _ => none) "a" (some { locked := false, count := 1 }))
      "a" (some { locked := false, count := 1 }),
    cleanKeys := ["a"],
    closed := false }

/-- C5 counterexample: the claim says a key whose re-checked count is `> 0`
is removed from the pending set regardless.  The code removes a key from
`cleanKeys` only when it also deleted the entry: sweeping `pendingBusy`
(count 1) succeeds in acquiring the mutex, keeps the entry — and `"a"` is
still in the pending set afterwards. -/
theorem sweep_keeps_pending_counterexample :
    Klocker.kcleanup pendingBusy = some pendingBusyAfter ∧
    pendingBusyAfter.locks "a" = some { locked := false, count := 1 } ∧
    "a" ∈ pendingBusyAfter.cleanKeys :=
  ⟨rfl, rfl, by decide⟩

/-- C5 amended: when the klocker sweep reaches a pending key whose entry is
present, the pass completes only if it could take that entry's mutex (the
entry was free at its turn); holding it, it re-checks the count: if `≤ 0`
it deletes the entry from the registry and drops the key from the pending
set, and if `> 0` it releases, leaves the entry unchanged — and leaves the
key in the pending set (keys leave the pending set only in the pass that
deletes their entry). -/
theorem sweep_check_delete_amended (s s' : GroupLock) (k : String) (e : Entry)
    (hk : s.locks k = some e) (hmem : k ∈ s.cleanKeys)
    (h : Klocker.kcleanup s = some s') :
    e.locked = false ∧
    (e.count ≤ 0 → s'.locks k = none ∧ k ∉ s'.cleanKeys) ∧
    (0 < e.count → s'.locks k = some e ∧ k ∈ s'.cleanKeys) := by
  unfold Klocker.kcleanup at h
  rw [Option.map_eq_some'] at h
  obtain ⟨p, hpass, heq⟩ := h
  have hps : Klocker.kcleanupPass s.locks s.cleanKeys = some (p.1, p.2) := by
    rw [hpass]
  have hrec := Klocker.kcleanupPass_present s.cleanKeys s.locks k e hk hmem hps
  subst heq
  refine ⟨hrec.1, fun hc => ⟨(hrec.2.1 hc).1, ?_⟩, fun hc => ⟨(hrec.2.2 hc).1, ?_⟩⟩
  · intro hmm
    rcases List.mem_filter.mp hmm with ⟨-, hcon⟩
    simp only [Bool.not_eq_true'] at hcon
    exact absurd ((hrec.2.1 hc).2) (by simpa using hcon)
  · exact List.mem_filter.mpr ⟨hmem, by simpa using (hrec.2.2 hc).2⟩

/-- C5 witness: sweeping `pendingBusy` (entry free, count 1): the pass
acquires, keeps the entry, and `"a"` stays pending. -/
theorem sweep_check_delete_amended_witness :
    (({ locked := false, count := 1 } : Entry).locked = false) ∧
    (({ locked := false, count := 1 } : Entry).count ≤ 0 →
      pendingBusyAfter.locks "a" = none ∧ "a" ∉ pendingBusyAfter.cleanKeys) ∧
    (0 < ({ locked := false, count := 1 } : Entry).count →
      pendingBusyAfter.locks "a" = some { locked := false, count := 1 } ∧
      "a" ∈ pendingBusyAfter.cleanKeys) :=
  sweep_check_delete_amended pendingBusy pendingBusyAfter "a" _ rfl (by decide) rfl

/-- C9: a successful `Stop` flips only the closed flag: the registry and
the pending set are untouched; afterwards any number of former sweep
intervals change nothing (the cleaner goroutine has returned, so `tick` is
the identity — no further reclamation); and `Lock`/`Unlock` neither read
the flag nor behave differently, so every already-created entry stays
present and usable. -/
theorem stop_halts_only_sweep (s s' : GroupLock) (h : GroupLock.Stop s = Except.ok s') :
    s'.locks = s.locks ∧ s'.cleanKeys = s.cleanKeys ∧ s'.closed = true ∧
    (∀ n : Nat, GroupLock.tick^[n] s' = s') ∧
    (∀ k, (GroupLock.Unlock s' k).locks = (GroupLock.Unlock s k).locks ∧
      (GroupLock.Unlock s' k).cleanKeys = (GroupLock.Unlock s k).cleanKeys) ∧
    (∀ k, (GroupLock.Lock s' k).map GroupLock.locks = (GroupLock.Lock s k).map GroupLock.locks ∧
      (GroupLock.Lock s' k).map GroupLock.cleanKeys = (GroupLock.Lock s k).map GroupLock.cleanKeys) := by
  unfold GroupLock.Stop at h
  by_cases hc : s.closed
  · simp [hc] at h
  · simp only [hc, if_false] at h
    injection h with h
    subst h
    refine ⟨rfl, rfl, rfl, ?_, ?_, ?_⟩
    · intro n
      exact Function.iterate_fixed rfl n
    · intro k
      show (GroupLock.Unlock ⟨s.locks, s.cleanKeys, true⟩ k).locks = _ ∧ _
      unfold GroupLock.Unlock
      cases hm : s.locks k <;> simp [GroupLock.insertK] <;> split <;> exact ⟨rfl, rfl⟩
    · intro k
      show ((GroupLock.Lock ⟨s.locks, s.cleanKeys, true⟩ k).map _) = _ ∧ _
      unfold GroupLock.Lock
      cases hm : s.locks k <;> simp <;> split <;> exact ⟨rfl, rfl⟩

/-- The state of a fresh handle after `Lock("a")` completed: one entry for
`"a"`, mutex held, count 1, nothing pending. -/
def lockedA : GroupLock :=
  { locks := upd (upd (fun _ => none) "a" (some { locked := false, count := 0 }))
      "a" (some { locked := true, count := 1 }),
    cleanKeys := [],
    closed := false }

/-- C9 witness, the spec's own scenario: `Lock("a")`; `Stop()`;
`Unlock("a")`; then three former sweep intervals pass — the entry for `"a"`
is still present (count 0, mutex free), because `tick` after `Stop` is the
identity.  The frame part is `stop_halts_only_sweep` applied at `lockedA`;
the last conjunct runs the scenario to the end. -/
theorem stop_halts_only_sweep_witness :
    (({ lockedA with closed := true } : GroupLock).locks = lockedA.locks ∧
     ({ lockedA with closed := true } : GroupLock).cleanKeys = lockedA.cleanKeys ∧
     ({ lockedA with closed := true } : GroupLock).closed = true ∧
     (∀ n : Nat, GroupLock.tick^[n] { lockedA with closed := true } = { lockedA with closed := true }) ∧
     (∀ k, (GroupLock.Unlock { lockedA with closed := true } k).locks = (GroupLock.Unlock lockedA k).locks ∧
       (GroupLock.Unlock { lockedA with closed := true } k).cleanKeys = (GroupLock.Unlock lockedA k).cleanKeys) ∧
     (∀ k, (GroupLock.Lock { lockedA with closed := true } k).map GroupLock.locks =
         (GroupLock.Lock lockedA k).map GroupLock.locks ∧
       (GroupLock.Lock { lockedA with closed := true } k).map GroupLock.cleanKeys =
         (GroupLock.Lock lockedA k).map GroupLock.cleanKeys)) ∧
    (GroupLock.tick^[3] (GroupLock.Unlock { lockedA with closed := true } "a")).locks "a" =
      some { locked := false, count := 0 } :=
  ⟨stop_halts_only_sweep lockedA { lockedA with closed := true } rfl, by decide⟩

namespace Conc

/-- C1: a mutual-exclusion violation reachable from the empty state with
key `"a"`, three caller threads (0, 1, 2) and the sweep, in both variants.
Thread 0 locks and unlocks `"a"` (count 0, `"a"` pending).  Thread 1
begins `Lock("a")` and completes the `LoadOrStore`, obtaining entry 0; the
sweep then runs, sees count 0, and deletes entry 0 from the registry (in
the first trace the `GroupLock` cleanup pass, in the second the klocker
sweep, which takes and releases entry 0's mutex around the check — thread
1 has not touched the mutex yet, so that does not help); thread 1 then
increments the stale entry's count and acquires its mutex — its
`Lock("a")` returns.  Thread 2 then calls `Lock("a")`, finds no registry
entry, creates fresh entry 1 and acquires it.  In both final states
threads 1 and 2 are each between a completed `Lock("a")` and its
`Unlock("a")`, on two distinct live entries for the same key. -/
theorem mutual_exclusion_race_trace :
    (∃ sBad : CState,
      Exec init
        [Label.fetch 0 "a", Label.incr 0, Label.acquire 0,
         Label.uload 0, Label.urelease 0, Label.udecr 0,
         Label.fetch 1 "a", Label.cleanup, Label.incr 1, Label.acquire 1,
         Label.fetch 2 "a", Label.incr 2, Label.acquire 2] sBad ∧
      sBad.phase 1 = Phase.inCS "a" 0 ∧ sBad.phase 2 = Phase.inCS "a" 1 ∧
      sBad.locks "a" = some 1 ∧ sBad.entries 0 = some { locked := true, count := 1 } ∧
      sBad.entries 1 = some { locked := true, count := 1 }) ∧
    (∃ sBad2 : CState,
      Exec init
        [Label.fetch 0 "a", Label.incr 0, Label.acquire 0,
         Label.uload 0, Label.urelease 0, Label.udecr 0,
         Label.fetch 1 "a",
         Label.sstart, Label.sload, Label.sacquire, Label.scheckDel, Label.srelease,
         Label.incr 1, Label.acquire 1,
         Label.fetch 2 "a", Label.incr 2, Label.acquire 2] sBad2 ∧
      sBad2.phase 1 = Phase.inCS "a" 0 ∧ sBad2.phase 2 = Phase.inCS "a" 1 ∧
      sBad2.locks "a" = some 1 ∧ sBad2.entries 0 = some { locked := true, count := 1 } ∧
      sBad2.entries 1 = some { locked := true, count := 1 }) :=
  ⟨⟨_, Exec.cons (Step.fetch_absent rfl rfl)
      (Exec.cons (Step.incr rfl rfl)
      (Exec.cons (Step.acquire rfl rfl rfl)
      (Exec.cons (Step.uload_present rfl rfl)
      (Exec.cons (Step.urelease rfl rfl rfl)
      (Exec.cons (Step.udecr rfl rfl)
      (Exec.cons (Step.fetch_present rfl rfl)
      (Exec.cons (Step.cleanupG rfl rfl)
      (Exec.cons (Step.incr rfl rfl)
      (Exec.cons (Step.acquire rfl rfl rfl)
      (Exec.cons (Step.fetch_absent rfl rfl)
      (Exec.cons (Step.incr rfl rfl)
      (Exec.cons (Step.acquire rfl rfl rfl)
      Exec.nil)))))))))))), rfl, rfl, rfl, rfl, rfl⟩,
   ⟨_, Exec.cons (Step.fetch_absent rfl rfl)
      (Exec.cons (Step.incr rfl rfl)
      (Exec.cons (Step.acquire rfl rfl rfl)
      (Exec.cons (Step.uload_present rfl rfl)
      (Exec.cons (Step.urelease rfl rfl rfl)
      (Exec.cons (Step.udecr rfl rfl)
      (Exec.cons (Step.fetch_present rfl rfl)
      (Exec.cons (Step.sstart rfl rfl)
      (Exec.cons (Step.sload rfl rfl)
      (Exec.cons (Step.sacquire rfl rfl rfl)
      (Exec.cons (Step.scheckDel rfl rfl (by decide))
      (Exec.cons (Step.srelease rfl rfl)
      (Exec.cons (Step.incr rfl rfl)
      (Exec.cons (Step.acquire rfl rfl rfl)
      (Exec.cons (Step.fetch_absent rfl rfl)
      (Exec.cons (Step.incr rfl rfl)
      (Exec.cons (Step.acquire rfl rfl rfl)
      Exec.nil)))))))))))))))), rfl, rfl, rfl, rfl, rfl⟩⟩

end Conc

namespace Conc

/-- Labels of the klocker sweep goroutine. -/
def sweepLabel : Label → Bool
  | .sstart | .sskip | .sload | .sacquire | .scheckDel | .scheckKeep | .srelease | .sfinish => true
  | _ => false

/-- C4 counterexample: the klocker sweep does not make a non-blocking
acquisition attempt and does not skip a held key.  Reachable trace: thread 0
locks and unlocks `"a"` (making `"a"` pending), locks it again and holds it;
the sweep tick starts, loads entry 0 for `"a"` — and now has no enabled
action at all: its only possible next action is the blocking `mutex.Lock()`,
which cannot proceed while the caller holds the mutex.  The sweep is blocked
by a caller of `Lock`, contrary to the claim. -/
theorem sweep_blocked_counterexample :
    ∃ sB : CState,
      Exec init
        [Label.fetch 0 "a", Label.incr 0, Label.acquire 0,
         Label.uload 0, Label.urelease 0, Label.udecr 0,
         Label.fetch 0 "a", Label.incr 0, Label.acquire 0,
         Label.sstart, Label.sload] sB ∧
      sB.sphase = SPhase.sloaded "a" 0 [] [] ∧
      sB.phase 0 = Phase.inCS "a" 0 ∧
      sB.entries 0 = some { locked := true, count := 1 } ∧
      (∀ l s', sweepLabel l = true → ¬ Step l sB s') := by
  refine ⟨_, Exec.cons (Step.fetch_absent rfl rfl)
      (Exec.cons (Step.incr rfl rfl)
      (Exec.cons (Step.acquire rfl rfl rfl)
      (Exec.cons (Step.uload_present rfl rfl)
      (Exec.cons (Step.urelease rfl rfl rfl)
      (Exec.cons (Step.udecr rfl rfl)
      (Exec.cons (Step.fetch_present rfl rfl)
      (Exec.cons (Step.incr rfl rfl)
      (Exec.cons (Step.acquire rfl rfl rfl)
      (Exec.cons (Step.sstart rfl rfl)
      (Exec.cons (Step.sload rfl rfl)
      Exec.nil)))))))))), rfl, rfl, rfl, ?_⟩
  intro l s' hl hstep
  cases hstep <;> simp_all [sweepLabel, upd]
  rename_i hlocked hconj hent
  rw [← hent] at hlocked
  simp at hlocked

/-- A sweeper positioned on a loaded free entry for `"a"`. -/
def swFree : CState :=
  { locks := upd (fun _ => none) "a" (some 0),
    entries := upd (fun _ => none) 0 (some { locked := false, count := 0 }),
    cleanKeys := ["a"],
    nextId := 1,
    phase := fun _ => Phase.idle,
    sphase := SPhase.sloaded "a" 0 [] [],
    closed := false }

/-- C4 amended: the two variants' sweeps against blocking.  (1) In the
klocker variant, once the sweep has loaded a pending key's entry its
acquisition step is enabled exactly when the mutex is free — a blocking
acquisition; (2) from that position the acquisition is the sweep's only
action: there is no transition that skips a held key this cycle; (3) the
`GroupLock` variant's cleanup pass never touches any mutex at all (it
leaves the whole entry heap unchanged, reading counts only), so it never
blocks — but it also never attempts any acquisition. -/
theorem sweep_blocking_amended :
    (∀ (s : CState) (k : String) (e : Nat) (pend rem : List String) (ent : Entry),
      s.sphase = SPhase.sloaded k e pend rem → s.entries e = some ent →
      ((∃ s', Step Label.sacquire s s') ↔ ent.locked = false)) ∧
    (∀ (s s' : CState) (l : Label), Step l s s' → sweepLabel l = true →
      ∀ (k : String) (e : Nat) (pend rem : List String),
        s.sphase = SPhase.sloaded k e pend rem → l = Label.sacquire) ∧
    (∀ s : CState, (gcleanupState s).entries = s.entries) := by
  refine ⟨?_, ?_, fun s => rfl⟩
  · intro s k e pend rem ent hs hent
    constructor
    · rintro ⟨s', hstep⟩
      cases hstep
      rename_i hl0 hs0 hent0
      rw [hs] at hs0
      injection hs0 with h1 h2 h3 h4
      subst h2
      rw [hent] at hent0
      injection hent0 with h5
      rw [h5]
      exact hl0
    · intro hl
      exact ⟨_, Step.sacquire hs hent hl⟩
  · intro s s' l hstep hsw k e pend rem hs
    cases hstep <;> simp_all [sweepLabel]

/-- C4 amended witness: at `swFree` (entry 0 for `"a"` loaded and free) the
sweep's acquisition step is enabled, matching the free mutex. -/
theorem sweep_blocking_amended_witness :
    (∃ s', Step Label.sacquire swFree s') ↔
      ({ locked := false, count := 0 } : Entry).locked = false :=
  sweep_blocking_amended.1 swFree "a" 0 [] [] { locked := false, count := 0 } rfl rfl

end Conc

namespace Conc

/-- A caller thread's phase becomes `inCS` only through its own `acquire`
step (the `mutex.Lock()` of `Lock` returning), from `lockIncremented`. -/
theorem inCS_only_from_acquire (l : Label) (s s' : CState) (t : Nat) (k : String) (e : Nat)
    (h : Step l s s') (hnew : s'.phase t = Phase.inCS k e) (hold : s.phase t ≠ Phase.inCS k e) :
    l = Label.acquire t ∧ s.phase t = Phase.lockIncremented k e := by
  cases h <;> try (exact absurd hnew hold)
  case fetch_absent t0 k0 h1 h2 =>
    dsimp only at hnew
    by_cases htt : t = t0
    · subst htt
      rw [upd_same] at hnew
      exact Phase.noConfusion hnew
    · rw [upd_other s.phase t0 t _ htt] at hnew
      exact absurd hnew hold
  case fetch_present t0 k0 e0 h1 h2 =>
    dsimp only at hnew
    by_cases htt : t = t0
    · subst htt
      rw [upd_same] at hnew
      exact Phase.noConfusion hnew
    · rw [upd_other s.phase t0 t _ htt] at hnew
      exact absurd hnew hold
  case incr t0 k0 e0 ent0 h1 h2 =>
    dsimp only at hnew
    by_cases htt : t = t0
    · subst htt
      rw [upd_same] at hnew
      exact Phase.noConfusion hnew
    · rw [upd_other s.phase t0 t _ htt] at hnew
      exact absurd hnew hold
  case acquire t0 k0 e0 ent0 h1 h2 h3 =>
    dsimp only at hnew
    by_cases htt : t = t0
    · subst htt
      rw [upd_same] at hnew
      injection hnew with hk he
      subst hk
      subst he
      exact ⟨rfl, h2⟩
    · rw [upd_other s.phase t0 t _ htt] at hnew
      exact absurd hnew hold
  case uload_absent t0 k0 e0 h1 h2 =>
    dsimp only at hnew
    by_cases htt : t = t0
    · subst htt
      rw [upd_same] at hnew
      exact Phase.noConfusion hnew
    · rw [upd_other s.phase t0 t _ htt] at hnew
      exact absurd hnew hold
  case uload_present t0 k0 e0 e1 h1 h2 =>
    dsimp only at hnew
    by_cases htt : t = t0
    · subst htt
      rw [upd_same] at hnew
      exact Phase.noConfusion hnew
    · rw [upd_other s.phase t0 t _ htt] at hnew
      exact absurd hnew hold
  case urelease t0 k0 e0 ent0 h1 h2 h3 =>
    dsimp only at hnew
    by_cases htt : t = t0
    · subst htt
      rw [upd_same] at hnew
      exact Phase.noConfusion hnew
    · rw [upd_other s.phase t0 t _ htt] at hnew
      exact absurd hnew hold
  case udecr t0 k0 e0 ent0 h1 h2 =>
    dsimp only at hnew
    by_cases htt : t = t0
    · subst htt
      rw [upd_same] at hnew
      exact Phase.noConfusion hnew
    · rw [upd_other s.phase t0 t _ htt] at hnew
      exact absurd hnew hold


/-- A caller thread's phase becomes `unlockReleased` only through its own
`urelease` step (the `mutex.Unlock()` of `Unlock`), from `unlockLoaded`:
the decrement can only come after the release. -/
theorem unlockReleased_only_from_urelease (l : Label) (s s' : CState) (t : Nat) (k : String) (e : Nat)
    (h : Step l s s') (hnew : s'.phase t = Phase.unlockReleased k e)
    (hold : s.phase t ≠ Phase.unlockReleased k e) :
    l = Label.urelease t ∧ s.phase t = Phase.unlockLoaded k e := by
  cases h <;> try (exact absurd hnew hold)
  case fetch_absent t0 k0 h1 h2 =>
    dsimp only at hnew
    by_cases htt : t = t0
    · subst htt
      rw [upd_same] at hnew
      exact Phase.noConfusion hnew
    · rw [upd_other s.phase t0 t _ htt] at hnew
      exact absurd hnew hold
  case fetch_present t0 k0 e0 h1 h2 =>
    dsimp only at hnew
    by_cases htt : t = t0
    · subst htt
      rw [upd_same] at hnew
      exact Phase.noConfusion hnew
    · rw [upd_other s.phase t0 t _ htt] at hnew
      exact absurd hnew hold
  case incr t0 k0 e0 ent0 h1 h2 =>
    dsimp only at hnew
    by_cases htt : t = t0
    · subst htt
      rw [upd_same] at hnew
      exact Phase.noConfusion hnew
    · rw [upd_other s.phase t0 t _ htt] at hnew
      exact absurd hnew hold
  case acquire t0 k0 e0 ent0 h1 h2 h3 =>
    dsimp only at hnew
    by_cases htt : t = t0
    · subst htt
      rw [upd_same] at hnew
      exact Phase.noConfusion hnew
    · rw [upd_other s.phase t0 t _ htt] at hnew
      exact absurd hnew hold
  case uload_absent t0 k0 e0 h1 h2 =>
    dsimp only at hnew
    by_cases htt : t = t0
    · subst htt
      rw [upd_same] at hnew
      exact Phase.noConfusion hnew
    · rw [upd_other s.phase t0 t _ htt] at hnew
      exact absurd hnew hold
  case uload_present t0 k0 e0 e1 h1 h2 =>
    dsimp only at hnew
    by_cases htt : t = t0
    · subst htt
      rw [upd_same] at hnew
      exact Phase.noConfusion hnew
    · rw [upd_other s.phase t0 t _ htt] at hnew
      exact absurd hnew hold
  case urelease t0 k0 e0 ent0 h1 h2 h3 =>
    dsimp only at hnew
    by_cases htt : t = t0
    · subst htt
      rw [upd_same] at hnew
      injection hnew with hk he
      subst hk
      subst he
      exact ⟨rfl, h2⟩
    · rw [upd_other s.phase t0 t _ htt] at hnew
      exact absurd hnew hold
  case udecr t0 k0 e0 ent0 h1 h2 =>
    dsimp only at hnew
    by_cases htt : t = t0
    · subst htt
      rw [upd_same] at hnew
      exact Phase.noConfusion hnew
    · rw [upd_other s.phase t0 t _ htt] at hnew
      exact absurd hnew hold


/-- C8: the steps of `Lock(key)`.  A fetch on an absent key atomically
creates the entry with count 0 and the mutex free; a fetch on a present key
returns it and changes nothing; the increment adds exactly one to the
fetched entry's count and happens from the fetched phase, before any
acquisition; the acquisition takes the mutex from free to held and is the
only step after which the call has returned (`inCS`) — so `Lock` returns
only after acquisition, and no step of `Lock` can fail. -/
theorem lock_fetch_increment_acquire :
    (∀ (s s' : CState) (t : Nat) (k : String), Step (Label.fetch t k) s s' → s.locks k = none →
      s'.locks k = some s.nextId ∧ s'.entries s.nextId = some { locked := false, count := 0 } ∧
      s'.phase t = Phase.lockFetched k s.nextId ∧ s'.nextId = s.nextId + 1) ∧
    (∀ (s s' : CState) (t : Nat) (k : String) (e : Nat), Step (Label.fetch t k) s s' →
      s.locks k = some e →
      s'.locks = s.locks ∧ s'.entries = s.entries ∧ s'.phase t = Phase.lockFetched k e ∧
      s'.nextId = s.nextId) ∧
    (∀ (s s' : CState) (t : Nat), Step (Label.incr t) s s' →
      ∃ k e ent, s.phase t = Phase.lockFetched k e ∧ s.entries e = some ent ∧
        s'.entries e = some { ent with count := ent.count + 1 } ∧
        s'.phase t = Phase.lockIncremented k e ∧ s'.locks = s.locks) ∧
    (∀ (s s' : CState) (t : Nat), Step (Label.acquire t) s s' →
      ∃ k e ent, s.phase t = Phase.lockIncremented k e ∧ s.entries e = some ent ∧
        ent.locked = false ∧ s'.entries e = some { ent with locked := true } ∧
        s'.phase t = Phase.inCS k e) ∧
    (∀ (l : Label) (s s' : CState) (t : Nat) (k : String) (e : Nat),
      Step l s s' → s'.phase t = Phase.inCS k e → s.phase t ≠ Phase.inCS k e →
      l = Label.acquire t ∧ s.phase t = Phase.lockIncremented k e) := by
  refine ⟨?_, ?_, ?_, ?_, inCS_only_from_acquire⟩
  · intro s s' t k hstep habs
    cases hstep with
    | fetch_absent h1 h2 =>
        exact ⟨upd_same _ _ _, upd_same _ _ _, upd_same _ _ _, rfl⟩
    | fetch_present h1 h2 =>
        rw [habs] at h2
        exact Option.noConfusion h2
  · intro s s' t k e hstep hpres
    cases hstep with
    | fetch_absent h1 h2 =>
        rw [hpres] at h2
        exact Option.noConfusion h2
    | fetch_present h1 h2 =>
        rw [hpres] at h2
        injection h2 with he
        subst he
        exact ⟨rfl, rfl, upd_same _ _ _, rfl⟩
  · intro s s' t hstep
    cases hstep with
    | incr h1 h2 =>
        exact ⟨_, _, _, h1, h2, upd_same _ _ _, upd_same _ _ _, rfl⟩
  · intro s s' t hstep
    cases hstep with
    | acquire h1 h2 h3 =>
        exact ⟨_, _, _, h1, h2, h3, upd_same _ _ _, upd_same _ _ _⟩

/-- The state reached from `init` by thread 0 completing the
`LoadOrStore` of `Lock("a")` on the absent key. -/
def fetchedA : CState :=
  { init with
    locks := upd init.locks "a" (some 0),
    entries := upd init.entries 0 (some { locked := false, count := 0 }),
    nextId := 1,
    phase := upd init.phase 0 (Phase.lockFetched "a" 0) }

/-- C8 witness: thread 0 fetching absent `"a"` from the empty state creates
entry 0 with count 0 and a free mutex. -/
theorem lock_fetch_increment_acquire_witness :
    fetchedA.locks "a" = some 0 ∧
    fetchedA.entries 0 = some { locked := false, count := 0 } ∧
    fetchedA.phase 0 = Phase.lockFetched "a" 0 ∧ fetchedA.nextId = 1 :=
  lock_fetch_increment_acquire.1 init fetchedA 0 "a" (Step.fetch_absent rfl rfl) rfl

/-- C7: the steps of `Unlock(key)` when the entry is present.  The release
step (`mutex.Unlock()`) frees the mutex, changing neither count, registry
nor pending set; the decrement step subtracts exactly one from the count
and stores the key into the pending set exactly when the new count is
`≤ 0`; and a thread reaches the released phase only through its own release
step — so the decrement happens strictly after the release, in that
order. -/
theorem unlock_release_then_decrement :
    (∀ (s s' : CState) (t : Nat), Step (Label.urelease t) s s' →
      ∃ k e ent, s.phase t = Phase.unlockLoaded k e ∧ s.entries e = some ent ∧
        ent.locked = true ∧ s'.entries e = some { ent with locked := false } ∧
        s'.phase t = Phase.unlockReleased k e ∧ s'.locks = s.locks ∧
        s'.cleanKeys = s.cleanKeys) ∧
    (∀ (s s' : CState) (t : Nat), Step (Label.udecr t) s s' →
      ∃ k e ent, s.phase t = Phase.unlockReleased k e ∧ s.entries e = some ent ∧
        s'.entries e = some { ent with count := ent.count - 1 } ∧
        s'.cleanKeys = (if ent.count - 1 ≤ 0 then GroupLock.insertK s.cleanKeys k else s.cleanKeys) ∧
        s'.locks = s.locks) ∧
    (∀ (l : Label) (s s' : CState) (t : Nat) (k : String) (e : Nat),
      Step l s s' → s'.phase t = Phase.unlockReleased k e → s.phase t ≠ Phase.unlockReleased k e →
      l = Label.urelease t ∧ s.phase t = Phase.unlockLoaded k e) := by
  refine ⟨?_, ?_, unlockReleased_only_from_urelease⟩
  · intro s s' t hstep
    cases hstep with
    | urelease h1 h2 h3 =>
        exact ⟨_, _, _, h1, h2, h3, upd_same _ _ _, upd_same _ _ _, rfl, rfl⟩
  · intro s s' t hstep
    cases hstep with
    | udecr h1 h2 =>
        exact ⟨_, _, _, h1, h2, upd_same _ _ _, rfl, rfl⟩

/-- Thread 0 about to run the release step of `Unlock("a")`: the registry
maps `"a"` to entry 0, held with count 1. -/
def relA : CState :=
  { locks := upd (fun _ => none) "a" (some 0),
    entries := upd (fun _ => none) 0 (some { locked := true, count := 1 }),
    cleanKeys := [],
    nextId := 1,
    phase := upd (fun _ => Phase.idle) 0 (Phase.unlockLoaded "a" 0),
    sphase := SPhase.sidle,
    closed := false }

/-- The state after `relA`'s release step. -/
def relA' : CState :=
  { relA with
    entries := upd relA.entries 0 (some { locked := false, count := 1 }),
    phase := upd relA.phase 0 (Phase.unlockReleased "a" 0) }

/-- C7 witness: thread 0 releasing entry 0 of `"a"` frees the mutex,
leaves count, registry and pending set alone, and moves to the released
phase. -/
theorem unlock_release_then_decrement_witness :
    ∃ k e ent, relA.phase 0 = Phase.unlockLoaded k e ∧ relA.entries e = some ent ∧
      ent.locked = true ∧ relA'.entries e = some { ent with locked := false } ∧
      relA'.phase 0 = Phase.unlockReleased k e ∧ relA'.locks = relA.locks ∧
      relA'.cleanKeys = relA.cleanKeys :=
  unlock_release_then_decrement.1 relA relA' 0
    (@Step.urelease relA 0 "a" 0 { locked := true, count := 1 } rfl rfl rfl)


/-- The `GroupLock` cleanup pass never creates a registry mapping: a key
without one before the pass has none after. -/
theorem gpass_none (entries : Nat → Option Entry) (pending : List String)
    (locks : String → Option Nat) (k : String) (h : locks k = none) :
    (gpass entries locks pending).1 k = none := by
  induction pending generalizing locks with
  | nil => exact h
  | cons k' rest ih =>
      simp only [gpass]
      by_cases hkk : k = k'
      · subst hkk
        rw [h]
        exact ih locks h
      · cases hm : locks k' with
        | none => exact ih locks h
        | some e =>
            dsimp only
            cases hent : entries e with
            | none => exact ih locks h
            | some ent =>
                dsimp only
                by_cases hc : ent.count ≤ 0
                · simp only [hc, if_true]
                  exact ih (upd locks k' none) (by rw [upd_other locks k' k none hkk]; exact h)
                · simp only [hc, if_false]
                  exact ih locks h

/-- Apart from the two cleanup deletions (`Label.cleanup`, the atomic
`GroupLock` pass, and `Label.scheckDel`, the klocker sweep's delete), no
step changes an existing registry mapping. -/
theorem locks_preserved (l : Label) (s s' : CState) (h : Step l s s')
    (hnc : l ≠ Label.cleanup) (hnd : l ≠ Label.scheckDel) (k : String) (eid : Nat)
    (hk : s.locks k = some eid) : s'.locks k = some eid := by
  cases h <;> try (exact hk)
  case fetch_absent t0 k0 h1 h2 =>
    dsimp only
    by_cases hkk : k = k0
    · subst hkk
      rw [hk] at h2
      exact Option.noConfusion h2
    · rw [upd_other s.locks k0 k _ hkk]
      exact hk
  case cleanupG h1 h2 => exact absurd rfl hnc
  case scheckDel k0 e0 ent0 pend rem h1 h2 h3 => exact absurd rfl hnd

/-- C2: entry creation and observation.  (1) The only step that takes the
registry from no mapping for a key to a mapping is that key's atomic
`LoadOrStore` in some thread's `Lock`; it installs exactly one fresh entry
(the allocator's next identifier), with count 0 and the mutex free.  (2) A
`LoadOrStore` on a present key returns precisely the registry's entry and
creates nothing.  (3) Registry mappings persist across every execution that
contains no cleanup deletion, so all racing first-time callers for a key
observe the one created entry. -/
theorem entry_creation_unique :
    (∀ (l : Label) (s s' : CState) (k : String) (eid : Nat),
      Step l s s' → s.locks k = none → s'.locks k = some eid →
      (∃ t, l = Label.fetch t k) ∧ eid = s.nextId ∧
      s'.entries eid = some { locked := false, count := 0 } ∧ s'.nextId = s.nextId + 1) ∧
    (∀ (s s' : CState) (t : Nat) (k : String) (e : Nat), Step (Label.fetch t k) s s' →
      s.locks k = some e → s'.locks k = some e ∧ s'.phase t = Phase.lockFetched k e ∧
      s'.entries = s.entries) ∧
    (∀ (s : CState) (ls : List Label) (s' : CState), Exec s ls s' →
      Label.cleanup ∉ ls → Label.scheckDel ∉ ls →
      ∀ (k : String) (eid : Nat), s.locks k = some eid → s'.locks k = some eid) := by
  refine ⟨?_, ?_, ?_⟩
  · intro l s s' k eid hstep habs hnew
    cases hstep <;> try (exact Option.noConfusion (habs.symm.trans hnew))
    case fetch_absent t0 k0 h1 h2 =>
      dsimp only at hnew
      by_cases hkk : k = k0
      · subst hkk
        rw [upd_same] at hnew
        injection hnew with he
        refine ⟨⟨t0, rfl⟩, he.symm, ?_, rfl⟩
        dsimp only
        rw [← he, upd_same]
      · rw [upd_other s.locks k0 k _ hkk] at hnew
        exact Option.noConfusion (habs.symm.trans hnew)
    case cleanupG h1 h2 =>
      have hg : (gpass s.entries s.locks s.cleanKeys).1 k = none :=
        gpass_none s.entries s.cleanKeys s.locks k habs
      have hnew' : (gpass s.entries s.locks s.cleanKeys).1 k = some eid := hnew
      rw [hg] at hnew'
      exact Option.noConfusion hnew'
    case scheckDel k0 e0 ent0 pend rem h1 h2 h3 =>
      dsimp only at hnew
      by_cases hkk : k = k0
      · subst hkk
        rw [upd_same] at hnew
        exact Option.noConfusion hnew
      · rw [upd_other s.locks k0 k _ hkk] at hnew
        exact Option.noConfusion (habs.symm.trans hnew)
  · intro s s' t k e hstep hpres
    cases hstep with
    | fetch_absent h1 h2 =>
        rw [hpres] at h2
        exact Option.noConfusion h2
    | fetch_present h1 h2 =>
        rw [hpres] at h2
        injection h2 with he
        subst he
        exact ⟨hpres, upd_same _ _ _, rfl⟩
  · intro s ls s' hex
    induction hex with
    | nil => exact fun _ _ k eid hk => hk
    | cons hstep hrest ih =>
        intro h1 h2 k eid hk
        simp only [List.mem_cons, not_or] at h1 h2
        exact ih h1.2 h2.2 k eid
          (locks_preserved _ _ _ hstep (fun he => h1.1 he.symm) (fun he => h2.1 he.symm) k eid hk)

/-- C2 witness: from the empty state, thread 0's `LoadOrStore` of the
absent key `"a"` is a fetch that creates exactly entry 0 (count 0, free). -/
theorem entry_creation_unique_witness :
    (∃ t, Label.fetch 0 "a" = Label.fetch t "a") ∧ (0 : Nat) = init.nextId ∧
    fetchedA.entries 0 = some { locked := false, count := 0 } ∧ fetchedA.nextId = init.nextId + 1 :=
  entry_creation_unique.1 (Label.fetch 0 "a") init fetchedA "a" 0 (Step.fetch_absent rfl rfl) rfl rfl

end Conc
